import Mathlib

/-!
Verification development for the muaddib scanner core.

Go strings are modelled as `List Char`; Go maps are modelled as association
lists in insertion order (Go map iteration order is unspecified; the claims
settled here do not depend on it).  Each definition mirrors one function of
the repository; the file then proves or refutes the frozen claims about the
vulnerability database (`internal/vuln`), the lockfile parsers
(`internal/scanner/parser.go`) and the match engine (`internal/scanner/matcher.go`).
-/

set_option maxRecDepth 4000

namespace Muaddib

instance {ε α : Type} [DecidableEq ε] [DecidableEq α] : DecidableEq (Except ε α) :=
  fun a b =>
    match a, b with
    | .ok x, .ok y =>
      if h : x = y then .isTrue (by rw [h]) else .isFalse (by intro he; cases he; exact h rfl)
    | .error x, .error y =>
      if h : x = y then .isTrue (by rw [h]) else .isFalse (by intro he; cases he; exact h rfl)
    | .ok _, .error _ => .isFalse (by intro he; cases he)
    | .error _, .ok _ => .isFalse (by intro he; cases he)

/-- Strings of the Go source are modelled as lists of characters. -/
abbrev Str := List Char

/-- Coercion from a Lean string literal to the `List Char` model. -/
def str (s : String) : Str := s.data

/-! ## Modelled Go `strings` / `unicode` standard-library helpers -/

/-- Go `strings.HasPrefix` on the character-list model. -/
def isPrefixOfL : Str → Str → Bool
  | [], _ => true
  | _ :: _, [] => false
  | a :: as, b :: bs => a = b && isPrefixOfL as bs

/-- Go `strings.Index` for a single-character pattern: index of the first
occurrence of `c`, `none` when absent (Go returns `-1`). -/
def idxOf (c : Char) : Str → Option Nat
  | [] => none
  | a :: as => if a = c then some 0 else (idxOf c as).map (· + 1)

/-- Go `strings.LastIndex` for a single-character pattern. -/
def lastIdxOf (c : Char) : Str → Option Nat
  | [] => none
  | a :: as =>
    match lastIdxOf c as with
    | some i => some (i + 1)
    | none => if a = c then some 0 else none

/-- Go `strings.Index` for a general pattern: index of the first occurrence
of the substring `pat`, `none` when absent. -/
def idxOfSeq (pat : Str) : Str → Option Nat
  | [] => if isPrefixOfL pat [] then some 0 else none
  | s@(_ :: rest) =>
    if isPrefixOfL pat s then some 0 else (idxOfSeq pat rest).map (· + 1)

/-- Go `strings.Contains`. -/
def containsSeq (s pat : Str) : Bool := (idxOfSeq pat s).isSome

/-- Whitespace recognised by the model of Go `strings.TrimSpace`
(the inputs of interest are ASCII). -/
def isSpaceChar (c : Char) : Bool :=
  c = ' ' || c = '\t' || c = '\n' || c = '\r' || c = '\x0b' || c = '\x0c'

/-- Go `strings.TrimSpace`. -/
def trimL (l : Str) : Str :=
  ((l.dropWhile isSpaceChar).reverse.dropWhile isSpaceChar).reverse

/-- Go `strings.TrimPrefix`: removes one leading copy of `pre` when present. -/
def trimPrefixL (pre l : Str) : Str :=
  if isPrefixOfL pre l then l.drop pre.length else l

/-- Go `strings.TrimSuffix(s, ":")` specialised to a one-character suffix. -/
def trimSuffixChar (c : Char) (l : Str) : Str :=
  if l.getLast? = some c then l.dropLast else l

/-- Go `strings.Trim(s, cutset)`: removes characters of `cs` from both ends. -/
def trimCharSet (cs : Str) (l : Str) : Str :=
  ((l.dropWhile (cs.contains ·)).reverse.dropWhile (cs.contains ·)).reverse

/-- Go `strings.ToLower` (ASCII inputs). -/
def toLowerL (l : Str) : Str := l.map Char.toLower

/-- Go `strings.Split` for a single-character separator. -/
def splitOnChar (sep : Char) : Str → List Str
  | [] => [[]]
  | c :: rest =>
    if c = sep then [] :: splitOnChar sep rest
    else
      match splitOnChar sep rest with
      | [] => [[c]]
      | h :: t => (c :: h) :: t

/-- Prepends a character to the first piece of a split result. -/
def consHead (c : Char) : List Str → List Str
  | [] => [[c]]
  | h :: t => (c :: h) :: t

/-- Cutting loop behind `splitSeq`: repeatedly cuts the input at the first
occurrence of the separator.  The fuel argument only bounds the recursion;
`splitSeq` supplies enough fuel for it never to run out. -/
def splitSeqFuel (sep : Str) : Nat → Str → List Str
  | 0, s => [s]
  | fuel + 1, s =>
    match idxOfSeq sep s with
    | none => [s]
    | some i => s.take i :: splitSeqFuel sep fuel (s.drop (i + sep.length))

/-- Go `strings.Split` for a general non-empty separator (leftmost,
non-overlapping matches). -/
def splitSeq (sep s : Str) : List Str :=
  if sep = [] then [s] else splitSeqFuel sep (s.length + 1) s

/-- Go `strings.SplitN` for a single-character separator and `n > 0`. -/
def splitNChar (sep : Char) : Nat → Str → List Str
  | 0, _ => []
  | 1, l => [l]
  | n + 2, l =>
    match idxOf sep l with
    | none => [l]
    | some i => l.take i :: splitNChar sep (n + 1) (l.drop (i + 1))

/-- Go `strings.Join`. -/
def joinSep (sep : Str) : List Str → Str
  | [] => []
  | [x] => x
  | x :: y :: rest => x ++ sep ++ joinSep sep (y :: rest)

/-! ## Vulnerability database (`internal/vuln/db.go`) -/

/-- VulnEntry represents a vulnerable package entry
(struct `VulnEntry` of the vuln package). -/
structure VulnEntry where
  packageName : Str
  packageVersion : Str
  originalVersion : Str
  deriving Repr, DecidableEq

instance : Inhabited VulnEntry := ⟨⟨[], [], []⟩⟩

/-- The `"name@version"` key the Go code computes for the exact-match map. -/
def entryKey (e : VulnEntry) : Str := e.packageName ++ '@' :: e.packageVersion

/-- VulnDB holds the vulnerability database (struct `VulnDB`): an exact-match
association list keyed by `name@version`, a by-name index, and the
total-processed counter. -/
structure VulnDB where
  entries : List (Str × VulnEntry)
  byName : List (Str × List VulnEntry)
  totalEntries : Nat
  deriving Repr, DecidableEq

/-- `NewVulnDB` creates an empty database. -/
def NewVulnDB : VulnDB := ⟨[], [], 0⟩

/-- First-match association-list lookup, modelling Go map indexing
(the Go code only inserts a key when absent, so keys are unique). -/
def lookupKey (l : List (Str × VulnEntry)) (k : Str) : Option VulnEntry :=
  match l with
  | [] => none
  | (k', e) :: rest => if k' = k then some e else lookupKey rest k

/-- Appends an entry to `byName[name]`, modelling
`db.byName[entry.PackageName] = append(db.byName[entry.PackageName], entry)`. -/
def byNameAppend (l : List (Str × List VulnEntry)) (name : Str) (e : VulnEntry) :
    List (Str × List VulnEntry) :=
  match l with
  | [] => [(name, [e])]
  | (n, es) :: rest =>
    if n = name then (n, es ++ [e]) :: rest else (n, es) :: byNameAppend rest name e

/-- `VulnDB.Add`: increments the total counter on every call, and inserts the
entry into both indices only when the `name@version` key is not yet present. -/
def VulnDB.Add (db : VulnDB) (e : VulnEntry) : VulnDB :=
  let key := entryKey e
  if (lookupKey db.entries key).isSome then
    { db with totalEntries := db.totalEntries + 1 }
  else
    { entries := db.entries ++ [(key, e)]
      byName := byNameAppend db.byName e.packageName e
      totalEntries := db.totalEntries + 1 }

/-- `VulnDB.Check`: returns the entry at key `name@version`, requiring both a
non-empty name and a non-empty version. -/
def VulnDB.Check (db : VulnDB) (name version : Str) : Option VulnEntry :=
  if name = [] ∨ version = [] then none
  else lookupKey db.entries (name ++ '@' :: version)

/-- `VulnDB.Size`: number of unique `package@version` entries. -/
def VulnDB.Size (db : VulnDB) : Nat := db.entries.length

/-- `VulnDB.TotalEntries`: total entries processed, duplicates included. -/
def VulnDB.TotalEntries (db : VulnDB) : Nat := db.totalEntries

/-- `VulnDB.Merge`: re-adds every entry of the other database. -/
def VulnDB.Merge (db other : VulnDB) : VulnDB :=
  other.entries.foldl (fun d p => d.Add p.2) db

/-- `parseNpmVersionSpec`: splits on `||` and strips one leading `=` (plus
surrounding spaces) from each part, skipping empty parts. -/
def parseNpmVersionSpec (versionSpec : Str) : List Str :=
  npmParts (splitSeq (str "||") versionSpec)
where
  /-- The per-part trimming loop of `parseNpmVersionSpec`. -/
  npmParts : List Str → List Str
  | [] => []
  | p :: rest =>
    let p := trimL p
    if p = [] then npmParts rest
    else
      let p := if isPrefixOfL (str "=") p then trimL (p.drop 1) else p
      if p = [] then npmParts rest else p :: npmParts rest

/-- `parseVersionList`: npm OR-spec dialect when the cell contains `"= "` or
starts with `=`; otherwise the comma-list dialect, falling back to the raw
cell when the split yields nothing. -/
def parseVersionList (versionField : Str) : List Str :=
  if containsSeq versionField (str "= ") || isPrefixOfL (str "=") versionField then
    parseNpmVersionSpec versionField
  else
    let versions := ((splitOnChar ',' versionField).map trimL).filter (· ≠ [])
    if versions = [] ∧ versionField ≠ [] then [versionField] else versions

/-! ## CSV reading (model of Go `encoding/csv` as used by `parseCSV`) -/

/-- States of the CSV field scanner: outside quotes, inside a quoted field,
or just after a `"` seen inside a quoted field (which either escapes a
literal quote or closes the field). -/
inductive CsvSt | plain | quoted | closing
  deriving Repr, DecidableEq

/-- The CSV field scanner: `cur` is the current field (reversed), `acc` the
finished fields (reversed).  Models the `encoding/csv` field grammar for the
well-formed records the loader consumes: comma separation, double-quoted
fields, `""` escapes. -/
def csvFieldsGo (st : CsvSt) (cur : Str) (acc : List Str) : Str → List Str
  | [] => (cur.reverse :: acc).reverse
  | c :: rest =>
    match st with
    | .quoted =>
      if c = '"' then csvFieldsGo .closing cur acc rest
      else csvFieldsGo .quoted (c :: cur) acc rest
    | .closing =>
      if c = '"' then csvFieldsGo .quoted ('"' :: cur) acc rest
      else if c = ',' then csvFieldsGo .plain [] (cur.reverse :: acc) rest
      else csvFieldsGo .plain (c :: cur) acc rest
    | .plain =>
      if c = ',' then csvFieldsGo .plain [] (cur.reverse :: acc) rest
      else if c = '"' ∧ cur = [] then csvFieldsGo .quoted cur acc rest
      else csvFieldsGo .plain (c :: cur) acc rest

/-- Fields of one CSV record. -/
def csvFields (l : Str) : List Str := csvFieldsGo .plain [] [] l

/-- Records of a CSV document: one per non-blank line
(`encoding/csv` skips blank lines; the loader's inputs hold no embedded
newlines inside quoted fields). -/
def csvRecords (content : Str) : List (List Str) :=
  ((splitOnChar '\n' content).filter (· ≠ [])).map csvFields

/-- Column-name spellings accepted for the package-name role. -/
def isNameCol (col : Str) : Bool :=
  let c := toLowerL (trimL col)
  c = str "package_name" || c = str "packagename" || c = str "name" || c = str "package"

/-- Column-name spellings accepted for the version role. -/
def isVersionCol (col : Str) : Bool :=
  let c := toLowerL (trimL col)
  c = str "package_versions" || c = str "package_version" || c = str "packageversion" ||
    c = str "version" || c = str "versions"

/-- Index of the last header column matching `pred` (the Go loop overwrites
the index on every match, so the last match wins). -/
def lastMatchIdxAux (pred : Str → Bool) (i : Nat) : List Str → Option Nat
  | [] => none
  | c :: rest =>
    match lastMatchIdxAux pred (i + 1) rest with
    | some j => some j
    | none => if pred c then some i else none

/-- The row-processing loop of `parseCSV`: skips rows with a missing or empty
name or version cell, expands the version cell, and `Add`s one entry per
expanded version. -/
def processRecords (db : VulnDB) (nameIdx versionIdx : Nat) : List (List Str) → VulnDB
  | [] => db
  | record :: rest =>
    if nameIdx ≥ record.length then processRecords db nameIdx versionIdx rest
    else
      let packageName := trimL (record.getD nameIdx [])
      if packageName = [] then processRecords db nameIdx versionIdx rest
      else
        let versionField :=
          if versionIdx < record.length then trimL (record.getD versionIdx []) else []
        if versionField = [] then processRecords db nameIdx versionIdx rest
        else
          let versions := parseVersionList versionField
          let db := versions.foldl
            (fun d version => d.Add ⟨packageName, version, versionField⟩) db
          processRecords db nameIdx versionIdx rest

/-- `parseCSV`: reads the header, resolves the two column roles (falling back
to positions 0 and 1; the fallback warning is diagnostic only and not
modelled), then processes every record. -/
def parseCSV (content : Str) : Except Str VulnDB :=
  match csvRecords content with
  | [] => .error (str "failed to read CSV header")
  | header :: allRecords =>
    if header.length < 2 then
      .error (str "CSV must have at least 2 columns (package name and version)")
    else
      let nameIdx := (lastMatchIdxAux isNameCol 0 header).getD 0
      let versionIdx := (lastMatchIdxAux isVersionCol 0 header).getD 1
      .ok (processRecords NewVulnDB nameIdx versionIdx allRecords)

/-- `LoadFromMultipleURLs`' accumulation loop over the sources, with the
per-URL fetch-and-parse (`LoadFromURL`) abstracted as a function from URL to
result. State: merged database, collected error strings, success count. -/
def loadLoop (fetch : Str → Except Str VulnDB) :
    List Str → VulnDB → List Str → Nat → VulnDB × List Str × Nat
  | [], db, errs, sc => (db, errs, sc)
  | url :: rest, db, errs, sc =>
    match fetch url with
    | .error e => loadLoop fetch rest db (errs ++ [url ++ str ": " ++ e]) sc
    | .ok sourceDB => loadLoop fetch rest (db.Merge sourceDB) errs (sc + 1)

/-- `LoadFromMultipleURLs`: merges all sources that load; fails only when no
source loads, concatenating the per-source errors. -/
def LoadFromMultipleURLs (fetch : Str → Except Str VulnDB) (urls : List Str) :
    Except Str VulnDB :=
  if urls = [] then .error (str "no URLs provided")
  else
    let r := loadLoop fetch urls NewVulnDB [] 0
    if r.2.2 = 0 then
      .error (str "failed to load any IOC sources: " ++ joinSep (str "; ") r.2.1)
    else .ok r.1

/-! ## Supporting lemmas -/

/-- A successful key lookup means the key occurs among the stored keys. -/
theorem lookupKey_isSome_mem {l : List (Str × VulnEntry)} {k : Str}
    (h : (lookupKey l k).isSome = true) : k ∈ l.map Prod.fst := by
  induction l with
  | nil => simp [lookupKey] at h
  | cons p rest ih =>
    obtain ⟨k', e⟩ := p
    rw [lookupKey] at h
    by_cases hk : k' = k
    · simp [hk]
    · simp only [if_neg hk] at h
      exact List.mem_cons_of_mem _ (ih h)

/-- Splitting at a separator character is unambiguous as soon as the
right-hand decomposition keeps the separator out of both pieces. -/
theorem append_cons_inj {α : Type} {a : α} {l₁ l₂ l₃ l₄ : List α}
    (h₃ : a ∉ l₃) (h₄ : a ∉ l₄) (h : l₁ ++ a :: l₂ = l₃ ++ a :: l₄) :
    l₁ = l₃ ∧ l₂ = l₄ := by
  induction l₃ generalizing l₁ with
  | nil =>
    cases l₁ with
    | nil => simpa using h
    | cons c t =>
      simp only [List.nil_append, List.cons_append, List.cons.injEq] at h
      exact absurd (h.2 ▸ List.mem_append_right t (List.mem_cons_self a l₂)) h₄
  | cons c t ih =>
    cases l₁ with
    | nil =>
      simp only [List.nil_append, List.cons_append, List.cons.injEq] at h
      exact absurd (h.1 ▸ List.mem_cons_self c t) h₃
    | cons c' t' =>
      simp only [List.cons_append, List.cons.injEq] at h
      have hrec := ih (fun hm => h₃ (List.mem_cons_of_mem c hm)) h.2
      exact ⟨by rw [h.1, hrec.1], hrec.2⟩

/-! ## Claim C1 -/

/-- The CSV source of C1: a header plus the comma-list row `pkg,"1.0.0, 1.0.1",x`. -/
def srcC1 : Str := str "package_name,package_versions,sources\npkg,\"1.0.0, 1.0.1\",x"

/-- The database the loader builds from `srcC1`. -/
def dbC1 : VulnDB := (parseCSV srcC1).toOption.getD NewVulnDB

/-- C1: the comma-list row `pkg,"1.0.0, 1.0.1",x` loads successfully; lookups
for `pkg` at `1.0.0` and `1.0.1` succeed, the lookup at `1.0.2` fails, and
`Check` answers positively only when both the queried name and version
exactly equal those of an expanded entry. -/
theorem c1_comma_list_exact_match :
    (parseCSV srcC1).isOk = true
    ∧ (dbC1.Check (str "pkg") (str "1.0.0")).isSome = true
    ∧ (dbC1.Check (str "pkg") (str "1.0.1")).isSome = true
    ∧ dbC1.Check (str "pkg") (str "1.0.2") = none
    ∧ ∀ name version : Str, (dbC1.Check name version).isSome = true →
        name = str "pkg" ∧ (version = str "1.0.0" ∨ version = str "1.0.1") := by
  refine ⟨by decide, by decide, by decide, by decide, ?_⟩
  intro name version h
  rw [VulnDB.Check] at h
  by_cases hne : name = [] ∨ version = []
  · rw [if_pos hne] at h; simp at h
  · rw [if_neg hne] at h
    have hmem := lookupKey_isSome_mem h
    have hkeys : dbC1.entries.map Prod.fst = [str "pkg@1.0.0", str "pkg@1.0.1"] := by decide
    rw [hkeys] at hmem
    simp only [List.mem_cons, List.not_mem_nil, or_false] at hmem
    rcases hmem with hk | hk
    · have hsplit := @append_cons_inj Char '@' name version (str "pkg") (str "1.0.0")
        (by decide) (by decide) (by simpa using hk)
      exact ⟨hsplit.1, Or.inl hsplit.2⟩
    · have hsplit := @append_cons_inj Char '@' name version (str "pkg") (str "1.0.1")
        (by decide) (by decide) (by simpa using hk)
      exact ⟨hsplit.1, Or.inr hsplit.2⟩

/-- C1 witness: the generalisation of `c1_comma_list_exact_match` applied at
the concrete query `("pkg", "1.0.0")`. -/
theorem c1_comma_list_exact_match_witness :
    str "pkg" = str "pkg" ∧ (str "1.0.0" = str "1.0.0" ∨ str "1.0.0" = str "1.0.1") :=
  c1_comma_list_exact_match.2.2.2.2 (str "pkg") (str "1.0.0") (by decide)

/-! ## Claim C2 -/

/-- The CSV source of C2: a header plus the npm OR-spec row
`pkg,= 1.0.0 || = 2.0.0`. -/
def srcC2 : Str := str "package_name,package_versions\npkg,= 1.0.0 || = 2.0.0"

/-- The database the loader builds from `srcC2`. -/
def dbC2 : VulnDB := (parseCSV srcC2).toOption.getD NewVulnDB

/-- C2: the OR-spec row `pkg,= 1.0.0 || = 2.0.0` loads successfully, lookups
for `pkg` at `1.0.0` and at `2.0.0` both succeed, and every entry produced
from the row stores the full as-authored cell `= 1.0.0 || = 2.0.0` as its
`OriginalVersion`. -/
theorem c2_or_spec_lookups_and_original :
    (parseCSV srcC2).isOk = true
    ∧ (dbC2.Check (str "pkg") (str "1.0.0")).isSome = true
    ∧ (dbC2.Check (str "pkg") (str "2.0.0")).isSome = true
    ∧ dbC2.entries.all (fun p => p.2.originalVersion == str "= 1.0.0 || = 2.0.0") = true
    ∧ dbC2.Size = 2 := by
  decide

/-! ## Claim C3 -/

/-- Keys of `Add`: unchanged on a duplicate, extended by the new key otherwise. -/
theorem add_entries (db : VulnDB) (e : VulnEntry) :
    (db.Add e).entries =
      if (lookupKey db.entries (entryKey e)).isSome then db.entries
      else db.entries ++ [(entryKey e, e)] := by
  rw [VulnDB.Add]
  by_cases h : (lookupKey db.entries (entryKey e)).isSome <;> simp [h]

/-- A lookup succeeds exactly when the key is among the stored keys. -/
theorem lookupKey_isSome_iff {l : List (Str × VulnEntry)} {k : Str} :
    (lookupKey l k).isSome = true ↔ k ∈ l.map Prod.fst := by
  constructor
  · exact lookupKey_isSome_mem
  · intro hm
    induction l with
    | nil => simp at hm
    | cons p rest ih =>
      obtain ⟨k', e⟩ := p
      rw [lookupKey]
      by_cases hk : k' = k
      · simp [hk]
      · simp only [if_neg hk]
        rw [List.map_cons, List.mem_cons] at hm
        exact ih (hm.resolve_left (fun he => hk he.symm))

/-- `Add` preserves distinctness of the exact-match keys. -/
theorem add_nodup {db : VulnDB} (h : (db.entries.map Prod.fst).Nodup)
    (e : VulnEntry) : ((db.Add e).entries.map Prod.fst).Nodup := by
  rw [add_entries]
  by_cases hp : (lookupKey db.entries (entryKey e)).isSome
  · simpa [hp] using h
  · have hnm : entryKey e ∉ db.entries.map Prod.fst := by
      intro hm
      exact hp (lookupKey_isSome_iff.mpr hm)
    simp only [hp, if_false, Bool.false_eq_true, List.map_append, List.map_cons,
      List.map_nil]
    rw [List.nodup_append]
    exact ⟨h, List.nodup_singleton _, by
      intro x hx hx'
      simp only [List.mem_singleton] at hx'
      exact hnm (hx' ▸ hx)⟩

/-- Any fold of `Add`s starting from a key-distinct database keeps the
exact-match keys distinct. -/
theorem foldl_add_nodup (es : List VulnEntry) :
    ∀ db : VulnDB, (db.entries.map Prod.fst).Nodup →
      (((es.foldl VulnDB.Add db).entries.map Prod.fst)).Nodup := by
  induction es with
  | nil => intro db h; simpa using h
  | cons e rest ih =>
    intro db h
    exact ih (db.Add e) (add_nodup h e)

/-- The CSV source of C1 with its data row loaded twice. -/
def srcC1Twice : Str := srcC1 ++ str "\npkg,\"1.0.0, 1.0.1\",x"

/-- The database the loader builds from `srcC1Twice`. -/
def dbC1Twice : VulnDB := (parseCSV srcC1Twice).toOption.getD NewVulnDB

/-- C3: starting from the empty database, any sequence of `Add`s keeps the
exact-match keys distinct; `Add` always increments the processed counter by
one; an `Add` whose key is already present leaves `Size` unchanged; and
loading the C1 row twice keeps `Size` at its once-loaded value while the
processed counter grows by the two rows loaded. -/
theorem c3_add_dedup_and_counter :
    (∀ es : List VulnEntry, ((es.foldl VulnDB.Add NewVulnDB).entries.map Prod.fst).Nodup)
    ∧ (∀ (db : VulnDB) (e : VulnEntry), (db.Add e).TotalEntries = db.TotalEntries + 1)
    ∧ (∀ (db : VulnDB) (e : VulnEntry),
        (lookupKey db.entries (entryKey e)).isSome = true → (db.Add e).Size = db.Size)
    ∧ (parseCSV srcC1Twice).isOk = true
    ∧ dbC1Twice.Size = dbC1.Size
    ∧ dbC1.TotalEntries = 2
    ∧ dbC1Twice.TotalEntries = dbC1.TotalEntries + 2 := by
  refine ⟨fun es => foldl_add_nodup es NewVulnDB (by decide), ?_, ?_, by decide,
    by decide, by decide, by decide⟩
  · intro db e
    rw [VulnDB.Add]
    by_cases h : (lookupKey db.entries (entryKey e)).isSome <;>
      simp [h, VulnDB.TotalEntries]
  · intro db e h
    simp [VulnDB.Size, add_entries, h]

/-- C3 witness: re-adding the single entry of a one-entry database leaves its
size unchanged (the duplicate-key hypothesis discharged concretely). -/
theorem c3_add_dedup_and_counter_witness :
    ((NewVulnDB.Add ⟨str "pkg", str "1.0.0", str "1.0.0"⟩).Add
        ⟨str "pkg", str "1.0.0", str "1.0.0"⟩).Size
      = (NewVulnDB.Add ⟨str "pkg", str "1.0.0", str "1.0.0"⟩).Size :=
  c3_add_dedup_and_counter.2.2.1 _ _ (by decide)

/-! ## Package extraction (`internal/scanner/parser.go`) -/

/-- Package represents a package with name and version (struct `Package`);
`source` is the Go string `"direct"` or `"transitive"`. -/
structure Package where
  name : Str
  version : Str
  isDev : Bool
  source : Str
  deriving Repr, DecidableEq

instance : Inhabited Package := ⟨⟨[], [], false, []⟩⟩

/-- The unmarshalled form of a `package.json` manifest (struct `PackageJSON`);
the JSON maps are modelled as association lists in iteration order. -/
structure PackageJSON where
  dependencies : List (Str × Str)
  devDependencies : List (Str × Str)
  optionalDependencies : List (Str × Str)
  peerDependencies : List (Str × Str)
  deriving Repr, DecidableEq

/-- `cleanVersion` removes semver range operators: each listed prefix is
stripped once in order, the result is trimmed, and for `a - b` ranges only
the text before the first space survives. -/
def cleanVersion (version : Str) : Str :=
  let version := trimPrefixL (str "^") version
  let version := trimPrefixL (str "~") version
  let version := trimPrefixL (str ">=") version
  let version := trimPrefixL (str ">") version
  let version := trimPrefixL (str "<=") version
  let version := trimPrefixL (str "<") version
  let version := trimPrefixL (str "=") version
  let version := trimL version
  match idxOf ' ' version with
  | some i => if i > 0 then version.take i else version
  | none => version

/-- `ParsePackageJSON` (after JSON unmarshalling): emits every production,
optional and peer dependency, and the dev dependencies only when requested;
no emptiness check is performed on either field. -/
def ParsePackageJSON (pkg : PackageJSON) (includeDev : Bool) : List Package :=
  (pkg.dependencies.map fun p => ⟨p.1, cleanVersion p.2, false, str "direct"⟩)
    ++ (if includeDev then
          pkg.devDependencies.map fun p => ⟨p.1, cleanVersion p.2, true, str "direct"⟩
        else [])
    ++ (pkg.optionalDependencies.map fun p => ⟨p.1, cleanVersion p.2, false, str "direct"⟩)
    ++ (pkg.peerDependencies.map fun p => ⟨p.1, cleanVersion p.2, false, str "direct"⟩)

/-- An entry of the v2/v3 `packages` map (struct `PackageLockEntry`); only the
fields the extraction reads are modelled. -/
structure PackageLockEntry where
  version : Str
  dev : Bool
  deriving Repr, DecidableEq

/-- An entry of the v1 `dependencies` tree (struct `LegacyLockEntry`). -/
inductive LegacyLockEntry where
  | mk (version : Str) (dev : Bool) (dependencies : List (Str × LegacyLockEntry))
  deriving Repr

/-- Version of a legacy entry. -/
def LegacyLockEntry.version : LegacyLockEntry → Str
  | .mk v _ _ => v

/-- Dev flag of a legacy entry. -/
def LegacyLockEntry.dev : LegacyLockEntry → Bool
  | .mk _ d _ => d

/-- Nested dependencies of a legacy entry. -/
def LegacyLockEntry.dependencies : LegacyLockEntry → List (Str × LegacyLockEntry)
  | .mk _ _ ds => ds

/-- The unmarshalled form of a `package-lock.json` (struct `PackageLockJSON`). -/
structure PackageLockJSON where
  packages : List (Str × PackageLockEntry)
  dependencies : List (Str × LegacyLockEntry)

/-- `extractPackageName`: strips the `node_modules/` prefix, keeps the final
chunk of a nested `node_modules` chain, and preserves a leading
`@scope/name` pair. -/
def extractPackageName (pkgPath : Str) : Str :=
  let path := trimPrefixL (str "node_modules/") pkgPath
  let parts := splitSeq (str "/node_modules/") path
  let lastPart := parts.getLastD []
  if lastPart.head? = some '@' ∧ (splitNChar '/' 3 lastPart).length ≥ 2 then
    (splitNChar '/' 3 lastPart).getD 0 [] ++ '/' :: (splitNChar '/' 3 lastPart).getD 1 []
  else
    (splitNChar '/' 2 lastPart).getD 0 []

/-- The v2/v3 loop of `ParsePackageLock`: skips the root entry, applies the
dev filter, drops empty extracted names, and deduplicates by `name@version`
through the `seen` set. -/
def lockV23Loop (includeDev : Bool) :
    List (Str × PackageLockEntry) → List Str → List Str × List Package
  | [], seen => (seen, [])
  | (pkgPath, entry) :: rest, seen =>
    if pkgPath = [] ∨ pkgPath = str "." then lockV23Loop includeDev rest seen
    else if entry.dev ∧ ¬includeDev then lockV23Loop includeDev rest seen
    else
      let name := extractPackageName pkgPath
      if name = [] then lockV23Loop includeDev rest seen
      else
        let key := name ++ '@' :: entry.version
        if key ∈ seen then lockV23Loop includeDev rest seen
        else
          let r := lockV23Loop includeDev rest (key :: seen)
          (r.1, ⟨name, entry.version, entry.dev, str "transitive"⟩ :: r.2)

/-- `parseLegacyDeps`: recursively walks the v1 dependency tree, applying the
dev filter and the shared `seen` deduplication (the Go `prefix` parameter is
never read and is omitted). -/
def parseLegacyDeps (includeDev : Bool) :
    List (Str × LegacyLockEntry) → List Str → List Str × List Package
  | [], seen => (seen, [])
  | (name, .mk ver dev ds) :: rest, seen =>
    if dev ∧ ¬includeDev then parseLegacyDeps includeDev rest seen
    else
      let key := name ++ '@' :: ver
      if key ∈ seen then parseLegacyDeps includeDev rest seen
      else
        let r1 := parseLegacyDeps includeDev ds (key :: seen)
        let r2 := parseLegacyDeps includeDev rest r1.1
        (r2.1, ⟨name, ver, dev, str "transitive"⟩ :: (r1.2 ++ r2.2))

/-- `ParsePackageLock` (after JSON unmarshalling): the v2/v3 `packages` map
first, then the v1 `dependencies` tree, sharing one deduplication set. -/
def ParsePackageLock (lock : PackageLockJSON) (includeDev : Bool) : List Package :=
  let r1 := lockV23Loop includeDev lock.packages []
  let r2 := parseLegacyDeps includeDev lock.dependencies r1.1
  r1.2 ++ r2.2

/-! ## pnpm lockfile (`ParsePnpmLock` and helpers) -/

/-- An entry of the pnpm `packages` map (struct `PnpmLockEntry`); only the
`dev` field is read by the extraction. -/
structure PnpmLockEntry where
  dev : Bool
  deriving Repr, DecidableEq

/-- `stripPnpmPeerDepSuffix`, parenthesis step: cut at the first `(` when it
is not the leading character. -/
def stripParenSuffix (version : Str) : Str :=
  match idxOf '(' version with
  | some i => if i > 0 then version.take i else version
  | none => version

/-- `stripPnpmPeerDepSuffix`, underscore step: cut at the first `_` when it
is not the leading character and an `@` occurs somewhere after it. -/
def stripUnderscoreSuffix (version : Str) : Str :=
  match idxOf '_' version with
  | some i =>
    if i > 0 ∧ '@' ∈ version.drop (i + 1) then version.take i else version
  | none => version

/-- `stripPnpmPeerDepSuffix`: strips a parenthesised peer decoration, then an
underscore-joined one. -/
def stripPnpmPeerDepSuffix (version : Str) : Str :=
  stripUnderscoreSuffix (stripParenSuffix version)

/-- `parsePnpmPackageKey`: extracts `(name, version)` from a pnpm package key,
handling the leading-slash and slash-less shapes, scoped names split after
the scope/name pair, and peer-dependency decorations on the version. -/
def parsePnpmPackageKey (key : Str) : Str × Str :=
  let key := trimPrefixL (str "/") key
  if key.head? = some '@' then
    let parts := splitNChar '@' 3 key
    if parts.length < 2 then ([], [])
    else
      let scopedName := '@' :: parts.getD 1 []
      if parts.length = 3 then
        (scopedName, stripPnpmPeerDepSuffix (parts.getD 2 []))
      else
        match lastIdxOf '/' key with
        | some i =>
          if i > 0 then (key.take i, stripPnpmPeerDepSuffix (key.drop (i + 1)))
          else ([], [])
        | none => ([], [])
  else
    if containsSeq key (str "@") then
      let parts := splitNChar '@' 2 key
      if parts.length = 2 then (parts.getD 0 [], stripPnpmPeerDepSuffix (parts.getD 1 []))
      else ([], [])
    else
      match lastIdxOf '/' key with
      | some i =>
        if i > 0 then (key.take i, stripPnpmPeerDepSuffix (key.drop (i + 1)))
        else ([], [])
      | none => ([], [])

/-- The packages loop of `ParsePnpmLock`: skips the root key, applies the dev
filter, drops keys whose name or version comes back empty, and deduplicates
by `name@version`. -/
def pnpmLoop (includeDev : Bool) :
    List (Str × PnpmLockEntry) → List Str → List Package
  | [], _ => []
  | (key, entry) :: rest, seen =>
    if key = [] then pnpmLoop includeDev rest seen
    else if entry.dev ∧ ¬includeDev then pnpmLoop includeDev rest seen
    else
      let nv := parsePnpmPackageKey key
      if nv.1 = [] ∨ nv.2 = [] then pnpmLoop includeDev rest seen
      else
        let pkgKey := nv.1 ++ '@' :: nv.2
        if pkgKey ∈ seen then pnpmLoop includeDev rest seen
        else ⟨nv.1, nv.2, entry.dev, str "transitive"⟩ :: pnpmLoop includeDev rest (pkgKey :: seen)

/-- `ParsePnpmLock` (after YAML unmarshalling of the `packages` map). -/
def ParsePnpmLock (packages : List (Str × PnpmLockEntry)) (includeDev : Bool) :
    List Package :=
  pnpmLoop includeDev packages []

/-! ## yarn.lock v1 (`ParseYarnLock` and helpers) -/

/-- `extractYarnPackageName`: drops an `@npm:` alias tail, then cuts a scoped
or plain entry at the `@` separating name from range. -/
def extractYarnPackageName (entry : Str) : Str :=
  let entry :=
    if containsSeq entry (str "@npm:") then
      entry.take ((idxOfSeq (str "@npm:") entry).getD 0)
    else entry
  if entry.head? = some '@' then
    match idxOf '@' entry.tail with
    | some i => if i > 0 then entry.take (i + 1) else entry
    | none => entry
  else
    entry.takeWhile (· ≠ '@')

/-- `trimSurroundingQuotes`: removes one pair of matching surrounding double
or single quotes. -/
def trimSurroundingQuotes (s : Str) : Str :=
  if isPrefixOfL (str "\"") s ∧ s.getLast? = some '"' then
    trimPrefixL (str "\"") (trimSuffixChar '"' s)
  else if isPrefixOfL (str "'") s ∧ s.getLast? = some '\'' then
    trimPrefixL (str "'") (trimSuffixChar '\'' s)
  else s

/-- The alias-collection loop of `parseYarnDeclarationLine`: trims, unquotes
and extracts each alias name, keeping non-empty first occurrences. -/
def yarnNamesLoop : List Str → List Str → List Str
  | [], _ => []
  | nr :: rest, seenNames =>
    let name := extractYarnPackageName (trimSurroundingQuotes (trimL nr))
    if name ≠ [] ∧ name ∉ seenNames then
      name :: yarnNamesLoop rest (name :: seenNames)
    else yarnNamesLoop rest seenNames

/-- `parseYarnDeclarationLine`: the unique alias names of a declaration line. -/
def parseYarnDeclarationLine (trimmed : Str) : List Str :=
  yarnNamesLoop (splitOnChar ',' (trimSuffixChar ':' trimmed)) []

/-- `isYarnDeclarationLine`: not indented and (trimmed) ending in `:`. -/
def isYarnDeclarationLine (line trimmed : Str) : Bool :=
  !isPrefixOfL (str " ") line && !isPrefixOfL (str "\t") line &&
    trimmed.getLast? = some ':'

/-- `parseYarnVersionLine`: the quoted version after the first space of a
`version "x.y.z"` line. -/
def parseYarnVersionLine (trimmed : Str) : Str :=
  match idxOf ' ' trimmed with
  | some i => trimCharSet (str "\"'") (trimmed.drop (i + 1))
  | none => []

/-- Parser state for `yarn.lock` scanning (struct `yarnLockParser`). -/
structure YarnState where
  packages : List Package
  seen : List Str
  currentNames : List Str
  currentVer : Str
  inEntry : Bool
  deriving Repr, DecidableEq

/-- The per-alias loop of `saveCurrentEntry`. -/
def yarnSaveLoop (ver : Str) : List Str → List Str → List Str × List Package
  | [], seen => (seen, [])
  | name :: rest, seen =>
    let pkgKey := name ++ '@' :: ver
    if pkgKey ∈ seen then yarnSaveLoop ver rest seen
    else
      let r := yarnSaveLoop ver rest (pkgKey :: seen)
      (r.1, ⟨name, ver, false, str "transitive"⟩ :: r.2)

/-- `saveCurrentEntry`: finalizes the open entry when it has a version and at
least one alias name, deduplicating by `name@version`. -/
def saveCurrentEntry (p : YarnState) : YarnState :=
  if ¬p.inEntry ∨ p.currentVer = [] ∨ p.currentNames = [] then p
  else
    let r := yarnSaveLoop p.currentVer p.currentNames p.seen
    { p with packages := p.packages ++ r.2, seen := r.1 }

/-- The line loop of `ParseYarnLock`. -/
def yarnLinesLoop : List Str → YarnState → YarnState
  | [], p => p
  | line :: rest, p =>
    let trimmed := trimL line
    if trimmed = [] ∨ isPrefixOfL (str "#") trimmed then yarnLinesLoop rest p
    else if isYarnDeclarationLine line trimmed then
      let p := saveCurrentEntry p
      yarnLinesLoop rest
        { p with currentNames := parseYarnDeclarationLine trimmed,
                 currentVer := [], inEntry := true }
    else if p.inEntry ∧ isPrefixOfL (str "version") trimmed then
      yarnLinesLoop rest { p with currentVer := parseYarnVersionLine trimmed }
    else yarnLinesLoop rest p

/-- `isBerryVersionRangeStart`: characters that open a version range. -/
def isBerryVersionRangeStart (c : Char) : Bool :=
  c = '^' || c = '~' || c = '>' || c = '<' || c = '=' || ('0' ≤ c && c ≤ '9')

/-- `hasBerryStyleNpmPrefix`: an `@npm:` immediately followed by a
version-range-looking character. -/
def hasBerryStyleNpmPrefix (trimmed : Str) : Bool :=
  match idxOfSeq (str "@npm:") trimmed with
  | none => false
  | some npmIdx =>
    match trimmed.drop (npmIdx + 5) with
    | [] => false
    | c :: _ => isBerryVersionRangeStart c

/-- `isYarnBerryFormat`: a `__metadata:` header anywhere, or a non-comment
declaration line with a Berry-style `@npm:` prefix. -/
def isYarnBerryFormat (content : Str) : Bool :=
  containsSeq content (str "__metadata:") ||
    (splitOnChar '\n' content).any fun line =>
      let trimmed := trimL line
      if trimmed = [] ∨ isPrefixOfL (str "#") trimmed then false
      else trimmed.getLast? = some ':' && hasBerryStyleNpmPrefix trimmed

/-- The error message `ParseYarnLock` returns on Yarn Berry input. -/
def yarnBerryErrorMsg : Str :=
  str "yarn.lock appears to be Yarn Berry (v2+) format which is not yet supported; only Yarn Classic (v1) format is supported"

/-- `ParseYarnLock`: rejects Yarn Berry content, then runs the two-state line
scanner and finalizes the last open entry.  The `includeDev` parameter is
accepted but unused, exactly as in the Go source. -/
def ParseYarnLock (content : Str) (includeDev : Bool) : Except Str (List Package) :=
  if isYarnBerryFormat content then .error yarnBerryErrorMsg
  else
    .ok (saveCurrentEntry (yarnLinesLoop (splitOnChar '\n' content)
      ⟨[], [], [], [], false⟩)).packages

/-! ## Claim C4 -/

/-- C4: the leading-slash pnpm key `/@scope/pkg@1.2.3(peer@4.0.0)` and the
slash-less key `@scope/pkg@1.2.3` both parse to the pair
`(@scope/pkg, 1.2.3)`: the scoped name keeps its `@scope/name` shape and the
parenthesised peer decoration is stripped from the version. -/
theorem c4_pnpm_scoped_key_shapes :
    parsePnpmPackageKey (str "/@scope/pkg@1.2.3(peer@4.0.0)")
        = (str "@scope/pkg", str "1.2.3")
    ∧ parsePnpmPackageKey (str "@scope/pkg@1.2.3") = (str "@scope/pkg", str "1.2.3") := by
  decide

/-! ## Claim C5 -/

/-- The condition named by C5: an `@` occurs somewhere after the first
underscore of the version string. -/
def atFollowsFirstUnderscore (v : Str) : Bool :=
  match idxOf '_' v with
  | some i => decide ('@' ∈ v.drop (i + 1))
  | none => false

/-- C5 counterexample: `1.0.0(peer@2.0.0)_alpha` has no `@` after its first
underscore, yet the decoration stripper does not leave it unchanged (the
parenthesis step fires first), refuting the claim's `leaves the string
unchanged when no @ follows the underscore` in full generality. -/
theorem c5_counterexample_paren_before_underscore :
    atFollowsFirstUnderscore (str "1.0.0(peer@2.0.0)_alpha") = false
    ∧ stripPnpmPeerDepSuffix (str "1.0.0(peer@2.0.0)_alpha") = str "1.0.0"
    ∧ str "1.0.0" ≠ str "1.0.0(peer@2.0.0)_alpha" := by
  decide

/-- A character that occurs nowhere in the list is never found by `idxOf`. -/
theorem idxOf_eq_none {c : Char} {l : Str} (h : c ∉ l) : idxOf c l = none := by
  induction l with
  | nil => rfl
  | cons a rest ih =>
    have hne : a ≠ c := fun he => h (by rw [← he]; exact List.mem_cons_self a rest)
    rw [idxOf, if_neg hne, ih (fun hm => h (List.mem_cons_of_mem a hm))]
    rfl

/-- C5 as amended: on strings free of parenthesised decorations, the stripper
leaves the input unchanged whenever no `@` follows the first underscore
(so `1.0.0_alpha` is preserved), and it does remove an underscore-joined
suffix that is followed by an `@` (so `1.0.0_peer@2.0.0` becomes `1.0.0`). -/
theorem c5_underscore_boundary_amended (v : Str) (hp : '(' ∉ v) :
    (atFollowsFirstUnderscore v = false → stripPnpmPeerDepSuffix v = v)
    ∧ stripPnpmPeerDepSuffix (str "1.0.0_peer@2.0.0") = str "1.0.0"
    ∧ stripPnpmPeerDepSuffix (str "1.0.0_alpha") = str "1.0.0_alpha" := by
  refine ⟨?_, by decide, by decide⟩
  intro ha
  have h1 : stripParenSuffix v = v := by
    rw [stripParenSuffix, idxOf_eq_none hp]
  cases hidx : idxOf '_' v with
  | none => rw [stripPnpmPeerDepSuffix, h1, stripUnderscoreSuffix, hidx]
  | some i =>
    have ha' : decide ('@' ∈ v.drop (i + 1)) = false := by
      rw [atFollowsFirstUnderscore, hidx] at ha
      exact ha
    have hnot : '@' ∉ v.drop (i + 1) := of_decide_eq_false ha'
    rw [stripPnpmPeerDepSuffix, h1, stripUnderscoreSuffix, hidx]
    exact if_neg (fun hand => hnot hand.2)

/-- C5 witness: the amended statement applied to the paren-free input
`1.0.0_alpha`, whose first underscore is not followed by an `@`. -/
theorem c5_underscore_boundary_amended_witness :
    stripPnpmPeerDepSuffix (str "1.0.0_alpha") = str "1.0.0_alpha" :=
  (c5_underscore_boundary_amended (str "1.0.0_alpha") (by decide)).1 (by decide)

/-! ## Claim C6 -/

/-- C6: any content containing the `__metadata:` header signature, and any
content with a non-comment declaration line whose `@npm:` is immediately
followed by a version-range-looking character, makes the yarn parser fail
with the unsupported-format error (and hence return no package records). -/
theorem c6_berry_always_rejected (content : Str) (includeDev : Bool) :
    (containsSeq content (str "__metadata:") = true →
      ParseYarnLock content includeDev = .error yarnBerryErrorMsg)
    ∧ ∀ line ∈ splitOnChar '\n' content,
        trimL line ≠ [] →
        isPrefixOfL (str "#") (trimL line) = false →
        (trimL line).getLast? = some ':' →
        hasBerryStyleNpmPrefix (trimL line) = true →
        ParseYarnLock content includeDev = .error yarnBerryErrorMsg := by
  constructor
  · intro h
    rw [ParseYarnLock, isYarnBerryFormat]
    rw [h]
    rfl
  · intro line hmem h1 h2 h3 h4
    rw [ParseYarnLock, isYarnBerryFormat]
    have hany : ((splitOnChar '\n' content).any fun line =>
        let trimmed := trimL line
        if trimmed = [] ∨ isPrefixOfL (str "#") trimmed then false
        else trimmed.getLast? = some ':' && hasBerryStyleNpmPrefix trimmed) = true := by
      rw [List.any_eq_true]
      refine ⟨line, hmem, ?_⟩
      simp [h1, h2, h3, h4]
    rw [hany, Bool.or_true]
    rfl

/-- C6 witness: rejection demonstrated both for a `__metadata:` header and
for a Berry-style `pkg@npm:^1.0.0:` declaration line. -/
theorem c6_berry_always_rejected_witness :
    ParseYarnLock (str "__metadata:\n  version: 8") true = .error yarnBerryErrorMsg
    ∧ ParseYarnLock (str "\"pkg@npm:^1.0.0\":\n  version \"1.0.0\"") false
        = .error yarnBerryErrorMsg :=
  ⟨(c6_berry_always_rejected (str "__metadata:\n  version: 8") true).1 (by decide),
    (c6_berry_always_rejected (str "\"pkg@npm:^1.0.0\":\n  version \"1.0.0\"") false).2
      (str "\"pkg@npm:^1.0.0\":") (by decide) (by decide) (by decide) (by decide)
      (by decide)⟩

/-! ## Claims C7 and C10: supporting invariants -/

/-- What the yarn scanner guarantees of every emitted record: non-empty name,
non-empty version, and the hard-coded `IsDev: false`. -/
def YarnPkgOk (q : Package) : Prop := q.name ≠ [] ∧ q.version ≠ [] ∧ q.isDev = false

/-- Every name collected from a declaration line is non-empty. -/
theorem yarnNamesLoop_nonempty (l : List Str) :
    ∀ seenNames, ∀ n ∈ yarnNamesLoop l seenNames, n ≠ [] := by
  induction l with
  | nil => intro seenNames n hn; simp [yarnNamesLoop] at hn
  | cons nr rest ih =>
    intro seenNames n hn
    rw [yarnNamesLoop] at hn
    split at hn
    · rename_i hcond
      rcases List.mem_cons.mp hn with rfl | hn'
      · exact hcond.1
      · exact ih _ n hn'
    · exact ih _ n hn

/-- Every record emitted by the save loop is well-formed, given a non-empty
version and non-empty alias names. -/
theorem yarnSaveLoop_ok {ver : Str} (hver : ver ≠ []) (names : List Str)
    (hnames : ∀ n ∈ names, n ≠ []) :
    ∀ seen, ∀ q ∈ (yarnSaveLoop ver names seen).2, YarnPkgOk q := by
  induction names with
  | nil => intro seen q hq; simp [yarnSaveLoop] at hq
  | cons name rest ih =>
    intro seen q hq
    rw [yarnSaveLoop] at hq
    have hrest : ∀ n ∈ rest, n ≠ [] := fun n hn => hnames n (List.mem_cons_of_mem _ hn)
    split at hq
    · exact ih hrest _ q hq
    · rcases List.mem_cons.mp hq with rfl | hq'
      · exact ⟨hnames name (List.mem_cons_self name rest), hver, rfl⟩
      · exact ih hrest _ q hq'

/-- `saveCurrentEntry` preserves the record invariant (it never touches the
current alias names). -/
theorem saveCurrentEntry_ok {p : YarnState}
    (hpk : ∀ q ∈ p.packages, YarnPkgOk q) (hnm : ∀ n ∈ p.currentNames, n ≠ []) :
    ∀ q ∈ (saveCurrentEntry p).packages, YarnPkgOk q := by
  rw [saveCurrentEntry]
  split
  · exact hpk
  · rename_i hcond
    push_neg at hcond
    intro q hq
    rcases List.mem_append.mp hq with hq' | hq'
    · exact hpk q hq'
    · exact yarnSaveLoop_ok hcond.2.1 p.currentNames hnm p.seen q hq'

/-- The line loop of the yarn scanner preserves the record invariant and the
non-emptiness of the pending alias names. -/
theorem yarnLinesLoop_ok (lines : List Str) :
    ∀ p : YarnState, (∀ q ∈ p.packages, YarnPkgOk q) →
      (∀ n ∈ p.currentNames, n ≠ []) →
      (∀ q ∈ (yarnLinesLoop lines p).packages, YarnPkgOk q)
      ∧ (∀ n ∈ (yarnLinesLoop lines p).currentNames, n ≠ []) := by
  induction lines with
  | nil => intro p hpk hnm; exact ⟨hpk, hnm⟩
  | cons line rest ih =>
    intro p hpk hnm
    rw [yarnLinesLoop]
    split
    · exact ih p hpk hnm
    · split
      · exact ih _ (saveCurrentEntry_ok hpk hnm)
          (fun n hn => yarnNamesLoop_nonempty _ _ n hn)
      · split
        · exact ih _ hpk hnm
        · exact ih p hpk hnm

/-- Every record of a successful yarn parse is well-formed. -/
theorem parseYarnLock_ok {content : Str} {includeDev : Bool} {pkgs : List Package}
    (h : ParseYarnLock content includeDev = .ok pkgs) :
    ∀ q ∈ pkgs, YarnPkgOk q := by
  rw [ParseYarnLock] at h
  split at h
  · exact absurd h (by simp)
  · have hres := yarnLinesLoop_ok (splitOnChar '\n' content) ⟨[], [], [], [], false⟩
      (by intro q hq; simp at hq) (by intro n hn; simp at hn)
    have := saveCurrentEntry_ok hres.1 hres.2
    simpa [← Except.ok.injEq .. |>.mp h] using this

/-- Every record emitted by the pnpm loop has a non-empty name and version. -/
theorem pnpmLoop_nonempty {includeDev : Bool} (l : List (Str × PnpmLockEntry)) :
    ∀ seen, ∀ q ∈ pnpmLoop includeDev l seen, q.name ≠ [] ∧ q.version ≠ [] := by
  induction l with
  | nil => intro seen q hq; simp [pnpmLoop] at hq
  | cons p rest ih =>
    intro seen q hq
    obtain ⟨key, entry⟩ := p
    simp only [pnpmLoop] at hq
    split at hq
    · exact ih _ q hq
    · split at hq
      · exact ih _ q hq
      · split at hq
        · exact ih _ q hq
        · rename_i hnv
          push_neg at hnv
          split at hq
          · exact ih _ q hq
          · rcases List.mem_cons.mp hq with rfl | hq'
            · exact hnv
            · exact ih _ q hq'

/-- Every record emitted by the v2/v3 lock loop has a non-empty name. -/
theorem lockV23Loop_name_nonempty {includeDev : Bool} (l : List (Str × PackageLockEntry)) :
    ∀ seen, ∀ q ∈ (lockV23Loop includeDev l seen).2, q.name ≠ [] := by
  induction l with
  | nil => intro seen q hq; simp [lockV23Loop] at hq
  | cons p rest ih =>
    intro seen q hq
    obtain ⟨pkgPath, entry⟩ := p
    simp only [lockV23Loop] at hq
    split at hq
    · exact ih _ q hq
    · split at hq
      · exact ih _ q hq
      · split at hq
        · exact ih _ q hq
        · rename_i hname
          split at hq
          · exact ih _ q hq
          · rcases List.mem_cons.mp hq with rfl | hq'
            · exact hname
            · exact ih _ q hq'

/-! ## Claim C7 -/

/-- The legacy walk does nothing on an empty dependency tree. -/
theorem parseLegacyDeps_nil (includeDev : Bool) (seen : List Str) :
    parseLegacyDeps includeDev [] seen = (seen, []) := by
  simp [parseLegacyDeps]

/-- C7 counterexample: the manifest parser emits a record with an empty
version for the dependency `"pkg": ""`, and the newer-generation lockfile
parser emits a record with an empty version for a `packages` entry that
lacks a version — neither record is dropped. -/
theorem c7_counterexample_empty_version_emitted :
    ParsePackageJSON ⟨[(str "pkg", [])], [], [], []⟩ false
        = [⟨str "pkg", [], false, str "direct"⟩]
    ∧ ParsePackageLock ⟨[(str "node_modules/lib", ⟨[], false⟩)], []⟩ false
        = [⟨str "lib", [], false, str "transitive"⟩] := by
  refine ⟨by decide, ?_⟩
  simp only [ParsePackageLock, parseLegacyDeps_nil]
  decide

/-- C7 as amended: the pnpm and yarn parsers guarantee non-empty names and
versions for every emitted record, and the newer-generation (v2/v3) lockfile
walk guarantees non-empty names; the manifest parser and the legacy tree do
not enforce the invariant (they can emit an empty version, as the
counterexample shows). -/
theorem c7_nonempty_only_where_checked :
    (∀ (packages : List (Str × PnpmLockEntry)) (includeDev : Bool),
      ∀ q ∈ ParsePnpmLock packages includeDev, q.name ≠ [] ∧ q.version ≠ [])
    ∧ (∀ (content : Str) (includeDev : Bool) (pkgs : List Package),
        ParseYarnLock content includeDev = .ok pkgs →
          ∀ q ∈ pkgs, q.name ≠ [] ∧ q.version ≠ [])
    ∧ (∀ (lock : PackageLockJSON) (includeDev : Bool), lock.dependencies = [] →
        ∀ q ∈ ParsePackageLock lock includeDev, q.name ≠ []) := by
  refine ⟨?_, ?_, ?_⟩
  · intro packages includeDev q hq
    exact pnpmLoop_nonempty packages [] q hq
  · intro content includeDev pkgs h q hq
    have := parseYarnLock_ok h q hq
    exact ⟨this.1, this.2.1⟩
  · intro lock includeDev hdeps q hq
    simp only [ParsePackageLock, hdeps, parseLegacyDeps_nil, List.append_nil] at hq
    exact lockV23Loop_name_nonempty lock.packages [] q hq

/-- C7 amended witness: the three guarantees applied to concrete inputs that
each produce one record. -/
theorem c7_nonempty_only_where_checked_witness :
    ((⟨str "pkg", str "1.0.0", false, str "transitive"⟩ : Package).name ≠ []
      ∧ (⟨str "pkg", str "1.0.0", false, str "transitive"⟩ : Package).version ≠ [])
    ∧ ((⟨str "pkg", str "1.0.7", false, str "transitive"⟩ : Package).name ≠ []
      ∧ (⟨str "pkg", str "1.0.7", false, str "transitive"⟩ : Package).version ≠ [])
    ∧ (⟨str "lib", str "2.0.0", false, str "transitive"⟩ : Package).name ≠ [] :=
  ⟨c7_nonempty_only_where_checked.1 [(str "/pkg@1.0.0", ⟨false⟩)] true
      ⟨str "pkg", str "1.0.0", false, str "transitive"⟩ (by decide),
    c7_nonempty_only_where_checked.2.1 (str "pkg@^1.0.0:\n  version \"1.0.7\"") true
      [⟨str "pkg", str "1.0.7", false, str "transitive"⟩] (by decide)
      ⟨str "pkg", str "1.0.7", false, str "transitive"⟩ (by decide),
    c7_nonempty_only_where_checked.2.2
      ⟨[(str "node_modules/lib", ⟨str "2.0.0", false⟩)], []⟩ true rfl
      ⟨str "lib", str "2.0.0", false, str "transitive"⟩
      (by simp only [ParsePackageLock, parseLegacyDeps_nil]; decide)⟩

/-! ## Claim C10 -/

/-- C10: the yarn parser returns the same result whether the dev opt-in flag
is true or false, and every record of a successful parse has
`IsDev = false`. -/
theorem c10_yarn_dev_flag_ignored :
    (∀ content : Str, ParseYarnLock content true = ParseYarnLock content false)
    ∧ (∀ (content : Str) (includeDev : Bool) (pkgs : List Package),
        ParseYarnLock content includeDev = .ok pkgs → ∀ q ∈ pkgs, q.isDev = false) := by
  refine ⟨fun content => rfl, ?_⟩
  intro content includeDev pkgs h q hq
  exact (parseYarnLock_ok h q hq).2.2

/-- C10 witness: a one-entry yarn.lock parses with `IsDev = false`. -/
theorem c10_yarn_dev_flag_ignored_witness :
    (⟨str "pkg", str "1.0.7", false, str "transitive"⟩ : Package).isDev = false :=
  c10_yarn_dev_flag_ignored.2 (str "pkg@^1.0.0:\n  version \"1.0.7\"") false
    [⟨str "pkg", str "1.0.7", false, str "transitive"⟩] (by decide)
    ⟨str "pkg", str "1.0.7", false, str "transitive"⟩ (by decide)

/-! ## Claim C8 (`internal/scanner/matcher.go`, `Scanner.parseFile`) -/

/-- The format parsers `Scanner.parseFile` can dispatch to. -/
inductive ParserKind | packageJSON | packageLock
  deriving Repr, DecidableEq

/-- Go `path.Base`: last element of the path after removing trailing
slashes; `"."` for an empty path. -/
def pathBase (p : Str) : Str :=
  if p = [] then str "."
  else
    let q := (p.reverse.dropWhile (· = '/')).reverse
    if q = [] then str "/"
    else
      match lastIdxOf '/' q with
      | some i => q.drop (i + 1)
      | none => q

/-- The dispatch switch of `Scanner.parseFile`: which parser handles a file,
by base name; `none` models the default branch, which returns no packages
for every other file name. -/
def parseFileDispatch (filePath : Str) : Option ParserKind :=
  let filename := pathBase filePath
  if filename = str "package.json" then some .packageJSON
  else if filename = str "package-lock.json" then some .packageLock
  else none

/-- C8 evaluation at the failing inputs: `Scanner.parseFile` dispatches only
`package.json` and `package-lock.json`; the newer-generation alias
`npm-shrinkwrap.json`, the pnpm lockfile `pnpm-lock.yaml` and the
third-party classic lockfile `yarn.lock` all fall through to the default
branch and contribute no packages to the vulnerability match. -/
theorem c8_dispatch_only_two_names :
    parseFileDispatch (str "npm-shrinkwrap.json") = none
    ∧ parseFileDispatch (str "pnpm-lock.yaml") = none
    ∧ parseFileDispatch (str "yarn.lock") = none
    ∧ parseFileDispatch (str "package.json") = some .packageJSON
    ∧ parseFileDispatch (str "package-lock.json") = some .packageLock := by
  decide

/-! ## Claim C9 -/

/-- Databases whose stored keys agree with their entries' `name@version`
(true of every database the loader builds, since `Add` derives the key from
the entry). -/
def DBWf (db : VulnDB) : Prop := ∀ p ∈ db.entries, p.1 = entryKey p.2

instance (db : VulnDB) : Decidable (DBWf db) :=
  decidable_of_iff (∀ p ∈ db.entries, p.1 = entryKey p.2) Iff.rfl

/-- A successful lookup yields a stored pair with that key. -/
theorem lookupKey_isSome_exists {l : List (Str × VulnEntry)} {k : Str}
    (h : (lookupKey l k).isSome = true) : ∃ e, (k, e) ∈ l := by
  induction l with
  | nil => simp [lookupKey] at h
  | cons p rest ih =>
    obtain ⟨k', e⟩ := p
    rw [lookupKey] at h
    by_cases hk : k' = k
    · exact ⟨e, by rw [hk]; exact List.mem_cons_self _ _⟩
    · rw [if_neg hk] at h
      obtain ⟨e', he'⟩ := ih h
      exact ⟨e', List.mem_cons_of_mem _ he'⟩

/-- `Add` keeps every key that was already present. -/
theorem add_lookup_mono {db : VulnDB} {k : Str}
    (h : (lookupKey db.entries k).isSome = true) (e : VulnEntry) :
    (lookupKey (db.Add e).entries k).isSome = true := by
  rw [add_entries]
  split
  · exact h
  · rw [lookupKey_isSome_iff] at h ⊢
    rw [List.map_append]
    exact List.mem_append_left _ h

/-- After `Add`, the added entry's key is present. -/
theorem add_lookup_self (db : VulnDB) (e : VulnEntry) :
    (lookupKey (db.Add e).entries (entryKey e)).isSome = true := by
  rw [add_entries]
  split
  · assumption
  · rw [lookupKey_isSome_iff, List.map_append]
    exact List.mem_append_right _ (by simp)

/-- Folding `Add` over a list of stored pairs keeps every present key. -/
theorem foldl_add_lookup_mono (l : List (Str × VulnEntry)) :
    ∀ (db : VulnDB) (k : Str), (lookupKey db.entries k).isSome = true →
      (lookupKey ((l.foldl (fun d p => d.Add p.2) db)).entries k).isSome = true := by
  induction l with
  | nil => intro db k h; exact h
  | cons p rest ih =>
    intro db k h
    rw [List.foldl_cons]
    exact ih _ k (add_lookup_mono h p.2)

/-- `Merge` keeps every key of the receiver. -/
theorem merge_lookup_mono {db : VulnDB} {k : Str}
    (h : (lookupKey db.entries k).isSome = true) (other : VulnDB) :
    (lookupKey ((db.Merge other)).entries k).isSome = true :=
  foldl_add_lookup_mono other.entries db k h

/-- Folding `Add` over stored pairs makes every well-formed listed key
present. -/
theorem foldl_add_lookup_of_mem (l : List (Str × VulnEntry)) :
    ∀ (db : VulnDB) (k : Str) (e : VulnEntry), (k, e) ∈ l → k = entryKey e →
      (lookupKey ((l.foldl (fun d p => d.Add p.2) db)).entries k).isSome = true := by
  induction l with
  | nil => intro db k e hmem; simp at hmem
  | cons p rest ih =>
    intro db k e hmem hwf
    rw [List.foldl_cons]
    rcases List.mem_cons.mp hmem with he | hmem'
    · obtain rfl : p = (k, e) := he.symm
      exact foldl_add_lookup_mono rest _ k (by rw [hwf]; exact add_lookup_self db e)
    · exact ih _ k e hmem' hwf

/-- `Merge` imports every well-formed key of the other database. -/
theorem merge_lookup_of_mem {other : VulnDB} {k : Str} {e : VulnEntry}
    (hmem : (k, e) ∈ other.entries) (hwf : k = entryKey e) (db : VulnDB) :
    (lookupKey ((db.Merge other)).entries k).isSome = true :=
  foldl_add_lookup_of_mem other.entries db k e hmem hwf

/-- The source loop: the accumulated database keeps every present key. -/
theorem loadLoop_lookup_mono (fetch : Str → Except Str VulnDB) (urls : List Str) :
    ∀ (db : VulnDB) (errs : List Str) (sc : Nat) (k : Str),
      (lookupKey db.entries k).isSome = true →
      (lookupKey (loadLoop fetch urls db errs sc).1.entries k).isSome = true := by
  induction urls with
  | nil => intro db errs sc k h; exact h
  | cons url rest ih =>
    intro db errs sc k h
    rw [loadLoop]
    cases fetch url with
    | error e => exact ih _ _ _ k h
    | ok sourceDB => exact ih _ _ _ k (merge_lookup_mono h sourceDB)

/-- The source loop imports every well-formed key of every fetched source. -/
theorem loadLoop_lookup_of_source (fetch : Str → Except Str VulnDB) (urls : List Str) :
    ∀ (db : VulnDB) (errs : List Str) (sc : Nat) (u : Str) (db' : VulnDB)
      (k : Str) (e : VulnEntry),
      u ∈ urls → fetch u = .ok db' → (k, e) ∈ db'.entries → k = entryKey e →
      (lookupKey (loadLoop fetch urls db errs sc).1.entries k).isSome = true := by
  induction urls with
  | nil => intro db errs sc u db' k e hu; simp at hu
  | cons url rest ih =>
    intro db errs sc u db' k e hu hf hmem hwf
    rw [loadLoop]
    rcases List.mem_cons.mp hu with rfl | hu'
    · rw [hf]
      exact loadLoop_lookup_mono fetch rest _ _ _ k (merge_lookup_of_mem hmem hwf db)
    · cases fetch url with
      | error msg => exact ih _ _ _ u db' k e hu' hf hmem hwf
      | ok sourceDB => exact ih _ _ _ u db' k e hu' hf hmem hwf

/-- The source loop counts exactly the successfully fetched sources. -/
theorem loadLoop_sc (fetch : Str → Except Str VulnDB) (urls : List Str) :
    ∀ (db : VulnDB) (errs : List Str) (sc : Nat),
      (loadLoop fetch urls db errs sc).2.2
        = sc + urls.countP (fun u => (fetch u).isOk) := by
  induction urls with
  | nil => intro db errs sc; simp [loadLoop]
  | cons url rest ih =>
    intro db errs sc
    rw [loadLoop]
    cases hf : fetch url with
    | error e => rw [ih]; simp [List.countP_cons, hf, Except.isOk, Except.toBool]
    | ok sourceDB =>
      rw [ih]; simp [List.countP_cons, hf, Except.isOk, Except.toBool]; omega

/-- When every source fails, the loop only collects the error strings. -/
theorem loadLoop_all_failed (fetch : Str → Except Str VulnDB) (em : Str → Str)
    (urls : List Str) :
    ∀ (db : VulnDB) (errs : List Str) (sc : Nat),
      (∀ u ∈ urls, fetch u = .error (em u)) →
      loadLoop fetch urls db errs sc
        = (db, errs ++ urls.map (fun u => u ++ str ": " ++ em u), sc) := by
  induction urls with
  | nil => intro db errs sc _; simp [loadLoop]
  | cons url rest ih =>
    intro db errs sc hall
    rw [loadLoop]
    simp only [hall url (List.mem_cons_self _ _)]
    rw [ih _ _ _ (fun u hu => hall u (List.mem_cons_of_mem _ hu))]
    simp

/-- C9: the multi-source load succeeds exactly when some source loads; when
every source fails (and at least one URL was given) the single returned
error is the concatenation of all per-source errors; and every entry of
every successfully fetched well-formed source is found in the merged
result. -/
theorem c9_multi_source_tolerance (fetch : Str → Except Str VulnDB) (urls : List Str) :
    ((LoadFromMultipleURLs fetch urls).isOk = true
        ↔ ∃ u ∈ urls, (fetch u).isOk = true)
    ∧ (∀ em : Str → Str, urls ≠ [] → (∀ u ∈ urls, fetch u = .error (em u)) →
        LoadFromMultipleURLs fetch urls
          = .error (str "failed to load any IOC sources: "
              ++ joinSep (str "; ") (urls.map (fun u => u ++ str ": " ++ em u))))
    ∧ (∀ (u : Str) (db' : VulnDB) (n v : Str),
        u ∈ urls → fetch u = .ok db' → DBWf db' → (db'.Check n v).isSome = true →
        ∃ db, LoadFromMultipleURLs fetch urls = .ok db
          ∧ (db.Check n v).isSome = true) := by
  refine ⟨?_, ?_, ?_⟩
  · rw [LoadFromMultipleURLs]
    by_cases hurls : urls = []
    · subst hurls; simp [Except.isOk, Except.toBool]
    · rw [if_neg hurls]
      constructor
      · intro h
        by_cases hsc : (loadLoop fetch urls NewVulnDB [] 0).2.2 = 0
        · rw [if_pos hsc] at h; simp [Except.isOk, Except.toBool] at h
        · rw [loadLoop_sc] at hsc
          simp only [Nat.zero_add] at hsc
          obtain ⟨u, hu, hp⟩ := List.countP_pos_iff.mp (Nat.pos_of_ne_zero hsc)
          exact ⟨u, hu, by simpa using hp⟩
      · intro ⟨u, hu, hp⟩
        have hsc : (loadLoop fetch urls NewVulnDB [] 0).2.2 ≠ 0 := by
          rw [loadLoop_sc]
          have hpos : 0 < urls.countP (fun u => (fetch u).isOk) :=
            List.countP_pos_iff.mpr ⟨u, hu, hp⟩
          omega
        rw [if_neg hsc]
        rfl
  · intro em hurls hall
    rw [LoadFromMultipleURLs, if_neg hurls,
      loadLoop_all_failed fetch em urls NewVulnDB [] 0 hall]
    rfl
  · intro u db' n v hu hf hwf hchk
    have hurls : urls ≠ [] := fun he => by simp [he] at hu
    rw [VulnDB.Check] at hchk
    by_cases hnv : n = [] ∨ v = []
    · rw [if_pos hnv] at hchk; simp at hchk
    · rw [if_neg hnv] at hchk
      obtain ⟨e, hmem⟩ := lookupKey_isSome_exists hchk
      have hkey := hwf _ hmem
      have hin := loadLoop_lookup_of_source fetch urls NewVulnDB [] 0 u db'
        (n ++ '@' :: v) e hu hf hmem hkey
      have hsc : (loadLoop fetch urls NewVulnDB [] 0).2.2 ≠ 0 := by
        rw [loadLoop_sc]
        have hpos : 0 < urls.countP (fun u => (fetch u).isOk) :=
          List.countP_pos_iff.mpr ⟨u, hu, by rw [hf]; rfl⟩
        omega
      refine ⟨(loadLoop fetch urls NewVulnDB [] 0).1, ?_, ?_⟩
      · rw [LoadFromMultipleURLs, if_neg hurls, if_neg hsc]
      · rw [VulnDB.Check, if_neg hnv]
        exact hin

/-- C9 witness: with one failing and one succeeding source the load
succeeds and contains the good source's entry; with only failing sources it
returns the concatenated error. -/
theorem c9_multi_source_tolerance_witness :
    (∃ db, LoadFromMultipleURLs
        (fun u => if u = str "good"
          then .ok (NewVulnDB.Add ⟨str "p", str "1.0.0", str "1.0.0"⟩)
          else .error (str "boom"))
        [str "bad", str "good"] = .ok db
      ∧ (db.Check (str "p") (str "1.0.0")).isSome = true)
    ∧ LoadFromMultipleURLs
        (fun u => if u = str "good"
          then .ok (NewVulnDB.Add ⟨str "p", str "1.0.0", str "1.0.0"⟩)
          else .error (str "boom"))
        [str "bad"]
        = .error (str "failed to load any IOC sources: "
            ++ joinSep (str "; ") ([str "bad"].map (fun u => u ++ str ": " ++ str "boom"))) :=
  ⟨(c9_multi_source_tolerance _ _).2.2 (str "good")
      (NewVulnDB.Add ⟨str "p", str "1.0.0", str "1.0.0"⟩) (str "p") (str "1.0.0")
      (by decide) (by decide) (by decide) (by decide),
    (c9_multi_source_tolerance _ _).2.1 (fun _ => str "boom") (by decide) (by decide)⟩

end Muaddib

